import Mathlib

set_option maxRecDepth 100000

/-!
Shallow embedding of the Rosa chain-of-thought filter (`src/main.py`,
class `RosaCoTFilter`).  Text is modelled as `List Char`.  The three
regular-expression strategies of the plugin are embedded as explicit
position-by-position scanners with the exact leftmost / lazy / greedy
semantics of Python's `re` module for these concrete patterns, and the
keyword redaction is embedded as Python's `str.replace(kw, "")`
left-to-right non-overlapping removal.  All patterns of the source
contain no cased (Latin) letters, so the `re.IGNORECASE` flags are
semantically vacuous and the embedding matches case-sensitively.
-/

abbrev Txt := List Char

/-- Whitespace as recognised by Python's `str.strip()` and by `\s` in a
unicode regex (the sets agree on every character that can occur here). -/
def pyIsSpace (c : Char) : Bool :=
  c = ' ' ∨ c = '\t' ∨ c = '\n' ∨ c = '\r' ∨ c = '\x0b' ∨ c = '\x0c' ∨
  c = '\x1c' ∨ c = '\x1d' ∨ c = '\x1e' ∨ c = '\x1f' ∨ c = '\x85' ∨
  c = '\xa0' ∨ c = ' ' ∨ (0x2000 ≤ c.toNat ∧ c.toNat ≤ 0x200a) ∨
  c = ' ' ∨ c = ' ' ∨ c = ' ' ∨ c = ' ' ∨ c = '　'

/-- Python `str.strip()`: drop leading and trailing whitespace. -/
def pyStrip (s : Txt) : Txt :=
  ((s.dropWhile pyIsSpace).reverse.dropWhile pyIsSpace).reverse

/-- Optional stylistic prefix of the marker pattern: `罗莎的`. -/
def markerPre : Txt := ['罗', '莎', '的']

/-- Core of `FINAL_REPLY_PATTERN`: the literal `最终言语`. -/
def markerCore : Txt := ['最', '终', '言', '语']

/-- Number of characters consumed by the trailing `[:：]?\s*` of
`FINAL_REPLY_PATTERN` at the front of `s`. -/
def colonWsLen (s : Txt) : Nat :=
  match s with
  | [] => 0
  | a :: rest =>
    if a = ':' ∨ a = '：' then 1 + (rest.takeWhile pyIsSpace).length
    else (s.takeWhile pyIsSpace).length

/-- Length of the match of `FINAL_REPLY_PATTERN = (?:罗莎的)?最终言语[:：]?\s*`
anchored at the start of `s`, if it matches there. -/
def markerMatchAt (s : Txt) : Option Nat :=
  if (markerPre ++ markerCore).isPrefixOf s then
    some ((markerPre ++ markerCore).length +
      colonWsLen (s.drop (markerPre ++ markerCore).length))
  else if markerCore.isPrefixOf s then
    some (markerCore.length + colonWsLen (s.drop markerCore.length))
  else none

/-- Leftmost-match search: first position `p` (reported as `i + p` for a
running offset `i`) at which `f` matches, with the match length. -/
def findFirstFrom (f : Txt → Option Nat) : Txt → Nat → Option (Nat × Nat)
  | [], i =>
    match f [] with
    | some L => some (i, L)
    | none => none
  | a :: s, i =>
    match f (a :: s) with
    | some L => some (i, L)
    | none => findFirstFrom f s (i + 1)

/-- `FINAL_REPLY_PATTERN.split(t, 1)`: position and length of the first
marker match, if any. -/
def markerFind (t : Txt) : Option (Nat × Nat) := findFirstFrom markerMatchAt t 0

/-- First accepted tag name: `内心独白`. -/
def tagName1 : Txt := ['内', '心', '独', '白']

/-- Second accepted tag name: `无声的观察`. -/
def tagName2 : Txt := ['无', '声', '的', '观', '察']

/-- Third accepted tag name: `意识流动`. -/
def tagName3 : Txt := ['意', '识', '流', '动']

/-- The accepted tag-name set of `THOUGHT_TAG_PATTERN`, in alternation order. -/
def tagNames : List Txt := [tagName1, tagName2, tagName3]

/-- `<n>` for a tag name `n`. -/
def openTag (n : Txt) : Txt := '<' :: (n ++ ['>'])

/-- `</n>` for a tag name `n`. -/
def closeTag (n : Txt) : Txt := '<' :: '/' :: (n ++ ['>'])

/-- Index of the first occurrence of `pat` in `s` (Python `str.find`). -/
def findSub : Txt → Txt → Option Nat
  | [], pat => if pat.isPrefixOf ([] : Txt) then some 0 else none
  | a :: rest, pat =>
    if pat.isPrefixOf (a :: rest) then some 0
    else (findSub rest pat).map (· + 1)

/-- Try to match `<n>(?P<content>.*?)</n>` (lazy content, DOTALL) anchored at
the start of `s` for one fixed tag name `n`: returns the content and the
total match length.  The lazy `.*?` stops at the first occurrence of the
closing tag. -/
def tagTryName (s n : Txt) : Option (Txt × Nat) :=
  match s with
  | [] => none
  | a :: rest =>
    if a = '<' then
      if n.isPrefixOf rest then
        match rest.drop n.length with
        | [] => none
        | b :: body =>
          if b = '>' then
            match findSub body (closeTag n) with
            | some k => some (body.take k, (2 + n.length) + (k + (closeTag n).length))
            | none => none
          else none
      else none
    else none

/-- Match of `THOUGHT_TAG_PATTERN` anchored at the start of `s`: the regex
alternation tries the three accepted names in order (their first characters
are pairwise distinct, so at most one can match textually). -/
def tagMatchAt (s : Txt) : Option (Txt × Nat) :=
  match tagTryName s tagName1 with
  | some m => some m
  | none =>
    match tagTryName s tagName2 with
    | some m => some m
    | none => tagTryName s tagName3

/-- `re.finditer`: non-overlapping left-to-right matches of the anchored
matcher `f`, each as `(start, payload, length)`.  `fuel` bounds the scan
(`s.length + 1` always suffices; our matchers never produce length 0). -/
def finditerAux (f : Txt → Option (Txt × Nat)) :
    Nat → Txt → Nat → List (Nat × Txt × Nat)
  | 0, _, _ => []
  | fuel + 1, s, i =>
    match f s with
    | some (info, L + 1) =>
      (i, info, L + 1) :: finditerAux f fuel (s.drop (L + 1)) (i + (L + 1))
    | some (_, 0) => []
    | none =>
      match s with
      | [] => []
      | _ :: rest => finditerAux f fuel rest (i + 1)

/-- `pattern.sub("", s)`: remove every non-overlapping left-to-right match. -/
def subAux (f : Txt → Option (Txt × Nat)) : Nat → Txt → Txt
  | 0, _ => []
  | fuel + 1, s =>
    match f s with
    | some (_, L + 1) => subAux f fuel (s.drop (L + 1))
    | some (_, 0) => s
    | none =>
      match s with
      | [] => []
      | a :: rest => a :: subAux f fuel rest

/-- `pattern.search(s) is not None`: does `f` match anywhere in `s`? -/
def searchB (f : Txt → Option (Txt × Nat)) : Txt → Bool
  | [] => (f ([] : Txt)).isSome
  | a :: rest => if (f (a :: rest)).isSome then true else searchB f rest

/-- All matches of `THOUGHT_TAG_PATTERN` in `t` (start, content, length). -/
def tagFinditer (t : Txt) : List (Nat × Txt × Nat) :=
  finditerAux tagMatchAt (t.length + 1) t 0

/-- `THOUGHT_TAG_PATTERN.sub("", t)`: the de-tagged copy of `t`. -/
def tagSub (t : Txt) : Txt := subAux tagMatchAt (t.length + 1) t

/-- `THOUGHT_TAG_PATTERN.search(t)` as a Boolean. -/
def tagSearch (t : Txt) : Bool := searchB tagMatchAt t

/-- Keyword of `UNBOUND_THINKING_PATTERN`: the literal `思索`. -/
def siSuo : Txt := ['思', '索']

/-- Match of `UNBOUND_THINKING_PATTERN = 思索[:：]\s*.*` (DOTALL) anchored at
the start of `s`: the greedy `.*` runs to the end of the string, so a match
is the whole of `s`. -/
def unboundMatchAt (s : Txt) : Option (Txt × Nat) :=
  if siSuo.isPrefixOf s then
    match s.drop siSuo.length with
    | [] => none
    | a :: _ => if a = ':' ∨ a = '：' then some (s, s.length) else none
  else none

/-- All matches of `UNBOUND_THINKING_PATTERN` in `t`. -/
def unboundFinditer (t : Txt) : List (Nat × Txt × Nat) :=
  finditerAux unboundMatchAt (t.length + 1) t 0

/-- `UNBOUND_THINKING_PATTERN.sub("", t)`. -/
def unboundSub (t : Txt) : Txt := subAux unboundMatchAt (t.length + 1) t

/-- First unbound match (position, length), mirroring `markerFind`. -/
def unboundFind (t : Txt) : Option (Nat × Nat) :=
  findFirstFrom (fun s => (unboundMatchAt s).map (fun m => m.2)) t 0

/-- Truncation of `s` at the first unbound-pattern occurrence: since the
single possible match runs to the end of the string, removing it keeps
exactly the text before it. -/
def unboundCut (s : Txt) : Txt :=
  match unboundFind s with
  | some (p, _) => s.take p
  | none => s

/-- `RosaCoTFilter.FILTERED_KEYWORDS`, in list order. -/
def FILTERED_KEYWORDS : List Txt :=
  [['呃', '.', '.', '.'], ['那', '个', '.', '.', '.'], ['嗯', '.', '.', '.'],
   ['这', '个', '嘛', '.', '.', '.'], ['卧', '槽'], ['牛', '逼'], ['我', '操']]

/-- Python `s.replace(pat, "")` for a non-empty `pat`: left-to-right
non-overlapping removal of every occurrence.  `fuel ≥ s.length + 1`. -/
def replaceAll (pat : Txt) : Nat → Txt → Txt
  | 0, _ => []
  | _ + 1, [] => []
  | fuel + 1, a :: rest =>
    if pat.isPrefixOf (a :: rest) then replaceAll pat fuel ((a :: rest).drop pat.length)
    else a :: replaceAll pat fuel rest

/-- `RosaCoTFilter.filter_keywords`: remove each keyword in list order. -/
def filter_keywords (t : Txt) : Txt :=
  FILTERED_KEYWORDS.foldl (fun acc kw => replaceAll kw (acc.length + 1) acc) t

/-- `pat` occurs in `s` as a contiguous substring. -/
def containsSub (s pat : Txt) : Bool := (findSub s pat).isSome

/-- No configured redaction keyword occurs in `s`. -/
def kwFree (s : Txt) : Bool := FILTERED_KEYWORDS.all fun kw => (findSub s kw).isNone

/-- Phase-2 thought fragments: trimmed contents of the tagged blocks, in
order of appearance (`main.py` lines 117-118). -/
def tagFrags (t : Txt) : List Txt := (tagFinditer t).map fun m => pyStrip m.2.1

/-- Phase-3 thought fragments: each unbound match is kept unless
`THOUGHT_TAG_PATTERN.search` finds a tagged block inside the matched span
(`main.py` lines 121-124). -/
def phase3Frags (t : Txt) : List Txt :=
  (unboundFinditer t).filterMap fun m =>
    if tagSearch m.2.1 then none else some (pyStrip m.2.1)

/-- All thought fragments found when the marker split fails. -/
def thoughtsFound (t : Txt) : List Txt := tagFrags t ++ phase3Frags t

/-- `"\n".join`. -/
def joinNL : List Txt → Txt
  | [] => []
  | [s] => s
  | s :: ss => s ++ '\n' :: joinNL ss

/-- The segmentation engine of `process_llm_response` (lines 106-137):
thought part and reply part before keyword redaction. -/
def segmentText (t : Txt) : Txt × Txt :=
  match markerFind t with
  | some (p, L) => (pyStrip (t.take p), pyStrip (t.drop (p + L)))
  | none =>
    if (thoughtsFound t).isEmpty then ([], pyStrip t)
    else (joinNL (thoughtsFound t), pyStrip (unboundSub (tagSub t)))

/-- Thought part of the segmentation. -/
def segThought (t : Txt) : Txt := (segmentText t).1

/-- Reply part of the segmentation, before keyword redaction. -/
def segSpeech (t : Txt) : Txt := (segmentText t).2

/-- Full text pipeline: segmentation followed by keyword redaction of the
reply part (line 146). -/
def processText (t : Txt) : Txt × Txt :=
  (segThought t, filter_keywords (segSpeech t))

/-- The mutable response object: its single text field (`completion_text`),
which may be absent (`None`). -/
structure LLMResp where
  completion_text : Option Txt
deriving DecidableEq

/-- Header of the debug-mode assembly: `【幕后的思绪】\n`. -/
def debugHeader : Txt := ['【', '幕', '后', '的', '思', '绪', '】', '\n']

/-- Separator of the debug-mode assembly: `\n\n---\n\n`. -/
def debugSep : Txt := ['\n', '\n', '-', '-', '-', '\n', '\n']

/-- Final assembly (lines 149-154): debug mode shows both parts. -/
def assembleText (display : Bool) (th rp : Txt) : Txt :=
  if display ∧ th ≠ [] then debugHeader ++ th ++ debugSep ++ rp else rp

/-- Python truthiness of the guard `response and response.completion_text`:
false for an absent response, an absent text and an empty text. -/
def truthyResp : Option LLMResp → Bool
  | none => false
  | some r =>
    match r.completion_text with
    | none => false
    | some [] => false
    | some (_ :: _) => true

/-- The `process_llm_response` handler (lines 97-154): returns the response
after the in-place mutation together with the list of thought-log entries
written (one per invocation when the thought part is non-empty). -/
def process_llm_response (display : Bool) (resp : Option LLMResp) :
    Option LLMResp × List Txt :=
  match resp with
  | none => (none, [])
  | some r =>
    match r.completion_text with
    | none => (some r, [])
    | some [] => (some r, [])
    | some (a :: s) =>
      let th := segThought (a :: s)
      let rp := filter_keywords (segSpeech (a :: s))
      (some ⟨some (assembleText display th rp)⟩, if th = [] then [] else [th])

/-! ### Concrete inputs used by counterexamples and witnesses -/

/-- Input whose tag removal glues the surrounding text back into a block. -/
def ceC2 : Txt := "<内心独白<内心独白>a</内心独白>>a</内心独白>".toList

/-- The well-formed tagged block occurring in `ceC2`. -/
def blkC2 : Txt := "<内心独白>a</内心独白>".toList

/-- Input whose unbound span starts before (is not contained in) the tagged block. -/
def ceC3 : Txt := "思索: a<内心独白>b</内心独白>".toList

/-- Like `ceC3` with a trailing character surviving de-tagging. -/
def ceC4 : Txt := "思索: a<内心独白>b</内心独白>c".toList

/-- Pattern-free input containing a redaction keyword. -/
def ceC5 : Txt := "呃...好".toList

/-- `卧卧槽槽`: removing `卧槽` once splices a new occurrence. -/
def ceC6 : Txt := ['卧', '卧', '槽', '槽']

/-- `我我操操`: removing `我操` once splices a new occurrence. -/
def ceC7 : Txt := ['我', '我', '操', '操']

/-- Concrete scenario A of the specification. -/
def wA : Txt := "思索: 考虑用户情绪。最终言语: 你好呀！".toList

/-- Content of the tagged block of concrete scenario B. -/
def wBc : Txt := "她想换个话题".toList

/-- Trailing speech of concrete scenario B. -/
def wBv : Txt := "好的，我们继续。".toList

/-- Content used by the mismatched-tag part of the C2 witness. -/
def wBm : Txt := ['x']

/-- Input with both a tagged block and a marker occurrence. -/
def w8 : Txt := "<内心独白>x</内心独白>最终言语: 好".toList

/-- Input with a tagged block followed by an unbound span. -/
def w4 : Txt := "<内心独白>b</内心独白>思索: x".toList

/-- Concrete scenario C of the specification (keyword-laden speech). -/
def w6 : Txt := "呃...我觉得嗯...可以".toList

/-- Pattern-free, keyword-free input with surrounding whitespace. -/
def w5 : Txt := " 你好 ".toList

/-- Pattern-free, keyword-free input. -/
def w7 : Txt := "你好".toList

/-! ### Generic lemmas about the scanners -/

theorem findFirstFrom_eq_some (f : Txt → Option Nat) :
    ∀ (s : Txt) (i p L : Nat),
    (∀ q, q < p → f (s.drop q) = none) → f (s.drop p) = some L →
    findFirstFrom f s i = some (i + p, L) := by
  intro s
  induction s with
  | nil =>
    intro i p L h0 hL
    cases p with
    | zero => simp only [List.drop_nil] at hL; simp [findFirstFrom, hL]
    | succ p =>
      have h := h0 0 (Nat.succ_pos p)
      simp only [List.drop_nil] at h hL
      rw [h] at hL
      exact Option.noConfusion hL
  | cons a s ih =>
    intro i p L h0 hL
    cases p with
    | zero =>
      simp only [List.drop_zero] at hL
      simp [findFirstFrom, hL]
    | succ p =>
      have ha : f (a :: s) = none := by
        have := h0 0 (Nat.succ_pos p)
        simpa using this
      have hrec := ih (i + 1) p L
        (fun q hq => by
          have := h0 (q + 1) (Nat.succ_lt_succ hq)
          simpa [List.drop_succ_cons] using this)
        (by simpa [List.drop_succ_cons] using hL)
      have harith : i + 1 + p = i + (p + 1) := by omega
      simp only [findFirstFrom, ha]
      rw [hrec, harith]

theorem findFirstFrom_eq_none (f : Txt → Option Nat) :
    ∀ (s : Txt) (i : Nat), findFirstFrom f s i = none →
    ∀ q, f (s.drop q) = none := by
  intro s
  induction s with
  | nil =>
    intro i h q
    simp only [List.drop_nil]
    simp only [findFirstFrom] at h
    cases hf : f [] with
    | none => rfl
    | some L => rw [hf] at h; exact Option.noConfusion h
  | cons a s ih =>
    intro i h q
    simp only [findFirstFrom] at h
    cases hf : f (a :: s) with
    | some L => rw [hf] at h; exact Option.noConfusion h
    | none =>
      rw [hf] at h
      cases q with
      | zero => simpa using hf
      | succ q => simpa [List.drop_succ_cons] using ih (i + 1) h q

theorem findFirstFrom_some_inv (f : Txt → Option Nat) :
    ∀ (s : Txt) (i j L : Nat), findFirstFrom f s i = some (j, L) →
    ∃ p, j = i + p ∧ f (s.drop p) = some L ∧ ∀ q, q < p → f (s.drop q) = none := by
  intro s
  induction s with
  | nil =>
    intro i j L h
    simp only [findFirstFrom] at h
    cases hf : f [] with
    | none => rw [hf] at h; exact Option.noConfusion h
    | some L' =>
      rw [hf] at h
      obtain ⟨h1, h2⟩ : i = j ∧ L' = L := by simpa [Prod.ext_iff] using h
      refine ⟨0, by omega, ?_, by omega⟩
      simpa [← h2] using hf
  | cons a s ih =>
    intro i j L h
    simp only [findFirstFrom] at h
    cases hf : f (a :: s) with
    | some L' =>
      rw [hf] at h
      obtain ⟨h1, h2⟩ : i = j ∧ L' = L := by simpa [Prod.ext_iff] using h
      refine ⟨0, by omega, ?_, by omega⟩
      simp only [List.drop_zero]
      rw [hf, h2]
    | none =>
      rw [hf] at h
      obtain ⟨p, hp, hmatch, hnone⟩ := ih (i + 1) j L h
      refine ⟨p + 1, by omega, by simpa [List.drop_succ_cons] using hmatch, ?_⟩
      intro q hq
      cases q with
      | zero => simpa using hf
      | succ q =>
        simpa [List.drop_succ_cons] using hnone q (by omega)

theorem finditerAux_nil (f : Txt → Option (Txt × Nat)) (hnil : f [] = none) :
    ∀ (fuel i : Nat), finditerAux f fuel [] i = [] := by
  intro fuel i
  cases fuel with
  | zero => rfl
  | succ fuel => simp [finditerAux, hnil]

theorem finditerAux_step_some (f : Txt → Option (Txt × Nat)) (fuel : Nat) (s : Txt)
    (i : Nat) (info : Txt) (L : Nat) (hf : f s = some (info, L + 1)) :
    finditerAux f (fuel + 1) s i
      = (i, info, L + 1) :: finditerAux f fuel (s.drop (L + 1)) (i + (L + 1)) := by
  simp only [finditerAux]
  rw [hf]

theorem finditerAux_step_zero (f : Txt → Option (Txt × Nat)) (fuel : Nat) (s : Txt)
    (i : Nat) (info : Txt) (hf : f s = some (info, 0)) :
    finditerAux f (fuel + 1) s i = [] := by
  simp only [finditerAux]
  rw [hf]

theorem finditerAux_step_none (f : Txt → Option (Txt × Nat)) (fuel : Nat) (i : Nat)
    (a : Char) (rest : Txt) (hf : f (a :: rest) = none) :
    finditerAux f (fuel + 1) (a :: rest) i = finditerAux f fuel rest (i + 1) := by
  simp only [finditerAux]
  rw [hf]

theorem subAux_step_some (f : Txt → Option (Txt × Nat)) (fuel : Nat) (s : Txt)
    (info : Txt) (L : Nat) (hf : f s = some (info, L + 1)) :
    subAux f (fuel + 1) s = subAux f fuel (s.drop (L + 1)) := by
  simp only [subAux]
  rw [hf]

theorem subAux_step_none (f : Txt → Option (Txt × Nat)) (fuel : Nat)
    (a : Char) (rest : Txt) (hf : f (a :: rest) = none) :
    subAux f (fuel + 1) (a :: rest) = a :: subAux f fuel rest := by
  simp only [subAux]
  rw [hf]

theorem finditerAux_congr (f : Txt → Option (Txt × Nat)) (hnil : f [] = none) :
    ∀ (fa fb : Nat) (s : Txt) (i : Nat), s.length < fa → s.length < fb →
    finditerAux f fa s i = finditerAux f fb s i := by
  intro fa
  induction fa with
  | zero => intro fb s i ha; omega
  | succ fa ih =>
    intro fb s i ha hb
    cases fb with
    | zero => omega
    | succ fb =>
      cases hf : f s with
      | some m =>
        obtain ⟨info, L⟩ := m
        cases L with
        | zero =>
          rw [finditerAux_step_zero f fa s i info hf,
            finditerAux_step_zero f fb s i info hf]
        | succ L =>
          rw [finditerAux_step_some f fa s i info L hf,
            finditerAux_step_some f fb s i info L hf]
          by_cases hlen : L + 1 ≤ s.length
          · have hd : (s.drop (L + 1)).length < fa := by
              rw [List.length_drop]; omega
            have hd' : (s.drop (L + 1)).length < fb := by
              rw [List.length_drop]; omega
            rw [ih fb (s.drop (L + 1)) (i + (L + 1)) hd hd']
          · have hd : s.drop (L + 1) = [] := by
              apply List.eq_nil_of_length_eq_zero
              rw [List.length_drop]; omega
            rw [hd, finditerAux_nil f hnil, finditerAux_nil f hnil]
      | none =>
        cases s with
        | nil => rw [finditerAux_nil f hnil, finditerAux_nil f hnil]
        | cons a rest =>
          rw [finditerAux_step_none f fa i a rest hf,
            finditerAux_step_none f fb i a rest hf]
          apply ih
          · simp only [List.length_cons] at ha; omega
          · simp only [List.length_cons] at hb; omega

theorem finditerAux_append (f : Txt → Option (Txt × Nat)) (hnil : f [] = none) :
    ∀ (u : Txt) (w : Txt) (fuel i : Nat), (u ++ w).length < fuel →
    (∀ q, q < u.length → f ((u ++ w).drop q) = none) →
    finditerAux f fuel (u ++ w) i = finditerAux f (w.length + 1) w (i + u.length) := by
  intro u
  induction u with
  | nil =>
    intro w fuel i hfuel _
    simp only [List.nil_append, List.length_nil, Nat.add_zero] at *
    exact finditerAux_congr f hnil fuel (w.length + 1) w i hfuel (by omega)
  | cons a u ih =>
    intro w fuel i hfuel hq
    cases fuel with
    | zero => simp at hfuel
    | succ fuel =>
      have h0 : f (a :: (u ++ w)) = none := by
        have := hq 0 (by simp)
        simpa using this
      rw [List.cons_append, finditerAux_step_none f fuel i a (u ++ w) h0]
      have hrec := ih w fuel (i + 1)
        (by simp only [List.length_append, List.length_cons] at hfuel ⊢; omega)
        (fun q hqlt => by
          have := hq (q + 1) (by simp only [List.length_cons]; omega)
          simpa [List.drop_succ_cons] using this)
      rw [hrec]
      have harith : i + 1 + u.length = i + (a :: u).length := by
        simp only [List.length_cons]; omega
      rw [harith]

theorem finditerAux_eq_nil (f : Txt → Option (Txt × Nat)) :
    ∀ (fuel : Nat) (s : Txt) (i : Nat), (∀ q, f (s.drop q) = none) →
    finditerAux f fuel s i = [] := by
  intro fuel
  induction fuel with
  | zero => intro s i _; rfl
  | succ fuel ih =>
    intro s i h
    have h0 : f s = none := by simpa using h 0
    simp only [finditerAux, h0]
    cases s with
    | nil => rfl
    | cons a rest =>
      apply ih
      intro q
      simpa [List.drop_succ_cons] using h (q + 1)

theorem finditerAux_nil_iff (f : Txt → Option (Txt × Nat)) (hnil : f [] = none)
    (hpos : ∀ s m, f s = some m → m.2 ≠ 0) :
    ∀ (fuel : Nat) (s : Txt) (i : Nat), s.length < fuel →
    (finditerAux f fuel s i = [] ↔ ∀ q, f (s.drop q) = none) := by
  intro fuel
  induction fuel with
  | zero => intro s i h; omega
  | succ fuel ih =>
    intro s i hfuel
    constructor
    · intro h q
      simp only [finditerAux] at h
      cases hf : f s with
      | some m =>
        obtain ⟨info, L⟩ := m
        cases L with
        | zero => exact absurd rfl (hpos s (info, 0) hf)
        | succ L => rw [hf] at h; exact absurd h (by simp)
      | none =>
        rw [hf] at h
        cases s with
        | nil => simpa using hnil
        | cons a rest =>
          cases q with
          | zero => simpa using hf
          | succ q =>
            have := (ih rest (i + 1) (by simp only [List.length_cons] at hfuel; omega)).mp h
            simpa [List.drop_succ_cons] using this q
    · intro h
      exact finditerAux_eq_nil f (fuel + 1) s i h

theorem searchB_eq_false_iff (f : Txt → Option (Txt × Nat)) :
    ∀ (s : Txt), searchB f s = false ↔ ∀ q, f (s.drop q) = none := by
  intro s
  induction s with
  | nil =>
    simp only [searchB, List.drop_nil]
    constructor
    · intro h q
      exact Option.not_isSome_iff_eq_none.mp (by simp [h])
    · intro h
      simp [h 0]
  | cons a rest ih =>
    simp only [searchB]
    cases hf : f (a :: rest) with
    | some m =>
      simp only [Option.isSome_some, if_true]
      constructor
      · intro h; exact absurd h (by simp)
      · intro h
        have := h 0
        simp only [List.drop_zero] at this
        rw [hf] at this
        exact absurd this (by simp)
    | none =>
      simp only [Option.isSome_none, Bool.false_eq_true, if_false]
      rw [ih]
      constructor
      · intro h q
        cases q with
        | zero => simpa using hf
        | succ q => simpa [List.drop_succ_cons] using h q
      · intro h q
        simpa [List.drop_succ_cons] using h (q + 1)

theorem subAux_nil (f : Txt → Option (Txt × Nat)) (hnil : f [] = none) :
    ∀ (fuel : Nat), subAux f fuel [] = [] := by
  intro fuel
  cases fuel with
  | zero => rfl
  | succ fuel => simp [subAux, hnil]

theorem subAux_congr (f : Txt → Option (Txt × Nat)) (hnil : f [] = none) :
    ∀ (fa fb : Nat) (s : Txt), s.length < fa → s.length < fb →
    subAux f fa s = subAux f fb s := by
  intro fa
  induction fa with
  | zero => intro fb s ha; omega
  | succ fa ih =>
    intro fb s ha hb
    cases fb with
    | zero => omega
    | succ fb =>
      cases hf : f s with
      | some m =>
        obtain ⟨info, L⟩ := m
        cases L with
        | zero =>
          have ea : subAux f (fa + 1) s = s := by simp only [subAux]; rw [hf]
          have eb : subAux f (fb + 1) s = s := by simp only [subAux]; rw [hf]
          rw [ea, eb]
        | succ L =>
          rw [subAux_step_some f fa s info L hf, subAux_step_some f fb s info L hf]
          by_cases hlen : L + 1 ≤ s.length
          · have hd : (s.drop (L + 1)).length < fa := by
              rw [List.length_drop]; omega
            have hd' : (s.drop (L + 1)).length < fb := by
              rw [List.length_drop]; omega
            exact ih fb (s.drop (L + 1)) hd hd'
          · have hd : s.drop (L + 1) = [] := by
              apply List.eq_nil_of_length_eq_zero
              rw [List.length_drop]; omega
            rw [hd, subAux_nil f hnil, subAux_nil f hnil]
      | none =>
        cases s with
        | nil => rw [subAux_nil f hnil, subAux_nil f hnil]
        | cons a rest =>
          rw [subAux_step_none f fa a rest hf, subAux_step_none f fb a rest hf]
          rw [ih fb rest (by simp only [List.length_cons] at ha; omega)
            (by simp only [List.length_cons] at hb; omega)]

theorem subAux_append (f : Txt → Option (Txt × Nat)) (hnil : f [] = none) :
    ∀ (u : Txt) (w : Txt) (fuel : Nat), (u ++ w).length < fuel →
    (∀ q, q < u.length → f ((u ++ w).drop q) = none) →
    subAux f fuel (u ++ w) = u ++ subAux f (w.length + 1) w := by
  intro u
  induction u with
  | nil =>
    intro w fuel hfuel _
    simp only [List.nil_append] at *
    exact subAux_congr f hnil fuel (w.length + 1) w hfuel (by omega)
  | cons a u ih =>
    intro w fuel hfuel hq
    cases fuel with
    | zero => simp at hfuel
    | succ fuel =>
      have h0 : f (a :: (u ++ w)) = none := by
        have := hq 0 (by simp)
        simpa using this
      rw [List.cons_append, subAux_step_none f fuel a (u ++ w) h0]
      have hrec := ih w fuel
        (by simp only [List.length_append, List.length_cons] at hfuel ⊢; omega)
        (fun q hqlt => by
          have := hq (q + 1) (by simp only [List.length_cons]; omega)
          simpa [List.drop_succ_cons] using this)
      rw [hrec, List.cons_append]

theorem subAux_id (f : Txt → Option (Txt × Nat)) :
    ∀ (fuel : Nat) (s : Txt), s.length < fuel → (∀ q, f (s.drop q) = none) →
    subAux f fuel s = s := by
  intro fuel
  induction fuel with
  | zero => intro s h; omega
  | succ fuel ih =>
    intro s hfuel h
    have h0 : f s = none := by simpa using h 0
    cases s with
    | nil => rw [subAux_nil f h0]
    | cons a rest =>
      rw [subAux_step_none f fuel a rest h0,
        ih rest (by simp only [List.length_cons] at hfuel; omega)
          (fun q => by simpa [List.drop_succ_cons] using h (q + 1))]

/-! ### Facts about the concrete matchers -/

theorem unboundMatchAt_nil : unboundMatchAt [] = none := by decide

theorem tagMatchAt_nil : tagMatchAt [] = none := by decide

theorem unboundMatchAt_some (s : Txt) (m : Txt × Nat) (h : unboundMatchAt s = some m) :
    m = (s, s.length) ∧ s ≠ [] := by
  have hne : s ≠ [] := by
    intro hs
    subst hs
    rw [unboundMatchAt_nil] at h
    exact Option.noConfusion h
  refine ⟨?_, hne⟩
  simp only [unboundMatchAt] at h
  split at h
  · split at h
    · exact absurd h (by simp)
    · split at h
      · exact (Option.some.inj h).symm
      · exact absurd h (by simp)
  · exact absurd h (by simp)

theorem tagTryName_pos (s n : Txt) (m : Txt × Nat) (h : tagTryName s n = some m) :
    m.2 ≠ 0 := by
  simp only [tagTryName] at h
  split at h
  · exact absurd h (by simp)
  · split at h
    · split at h
      · split at h
        · exact absurd h (by simp)
        · split at h
          · split at h
            · have he := Option.some.inj h
              rw [← he]
              simp only []
              omega
            · exact absurd h (by simp)
          · exact absurd h (by simp)
      · exact absurd h (by simp)
    · exact absurd h (by simp)

theorem tagMatchAt_pos (s : Txt) (m : Txt × Nat) (h : tagMatchAt s = some m) :
    m.2 ≠ 0 := by
  simp only [tagMatchAt] at h
  cases h1 : tagTryName s tagName1 with
  | some m1 =>
    simp only [h1] at h
    obtain rfl : m1 = m := Option.some.inj h
    exact tagTryName_pos s tagName1 m1 h1
  | none =>
    simp only [h1] at h
    cases h2 : tagTryName s tagName2 with
    | some m2 =>
      simp only [h2] at h
      obtain rfl : m2 = m := Option.some.inj h
      exact tagTryName_pos s tagName2 m2 h2
    | none =>
      simp only [h2] at h
      exact tagTryName_pos s tagName3 m h

/-! ### Redaction lemmas -/

theorem replaceAll_id (pat : Txt) :
    ∀ (fuel : Nat) (s : Txt), s.length < fuel → findSub s pat = none →
    replaceAll pat fuel s = s := by
  intro fuel
  induction fuel with
  | zero => intro s h; omega
  | succ fuel ih =>
    intro s hfuel hfind
    cases s with
    | nil => rfl
    | cons a rest =>
      simp only [findSub] at hfind
      split at hfind
      · exact absurd hfind (by simp)
      · next hcond =>
        have hrest : findSub rest pat = none := by simpa using hfind
        simp only [replaceAll]
        rw [if_neg hcond,
          ih rest (by simp only [List.length_cons] at hfuel; omega) hrest]

theorem filter_keywords_id (s : Txt) (h : kwFree s = true) : filter_keywords s = s := by
  simp only [kwFree] at h
  have hall : ∀ kw ∈ FILTERED_KEYWORDS, findSub s kw = none := by
    intro kw hkw
    have h2 := List.all_eq_true.mp h kw hkw
    simpa [Option.isNone_iff_eq_none] using h2
  have main : ∀ (kws : List Txt), (∀ kw ∈ kws, findSub s kw = none) →
      kws.foldl (fun acc kw => replaceAll kw (acc.length + 1) acc) s = s := by
    intro kws
    induction kws with
    | nil => intro _; rfl
    | cons kw kws ih =>
      intro hk
      simp only [List.foldl_cons]
      rw [replaceAll_id kw (s.length + 1) s (by omega) (hk kw (by simp))]
      exact ih (fun k hkmem => hk k (by simp [hkmem]))
  exact main FILTERED_KEYWORDS hall

/-! ### joinNL lemma -/

theorem mem_infix_joinNL (x : Txt) : ∀ (l : List Txt), x ∈ l → x <:+: joinNL l := by
  intro l
  induction l with
  | nil => intro h; simp at h
  | cons s ss ih =>
    intro hmem
    cases ss with
    | nil =>
      have hx : x = s := by simpa using hmem
      subst hx
      exact List.infix_refl x
    | cons s2 ss2 =>
      have hj : joinNL (s :: s2 :: ss2) = s ++ '\n' :: joinNL (s2 :: ss2) := rfl
      rw [hj]
      rcases List.mem_cons.mp hmem with rfl | hmem2
      · exact (List.prefix_append x ('\n' :: joinNL (s2 :: ss2))).isInfix
      · have hin : x <:+: joinNL (s2 :: ss2) := ih hmem2
        have h1 : x <:+: '\n' :: joinNL (s2 :: ss2) :=
          hin.trans (List.suffix_cons '\n' (joinNL (s2 :: ss2))).isInfix
        exact h1.trans (List.suffix_append s ('\n' :: joinNL (s2 :: ss2))).isInfix

/-! ### The unbound substitution truncates at the first keyword -/

theorem unboundSub_eq_cut (s : Txt) : unboundSub s = unboundCut s := by
  cases hf : unboundFind s with
  | none =>
    have hq := findFirstFrom_eq_none _ s 0 hf
    have hq' : ∀ q, unboundMatchAt (s.drop q) = none := by
      intro q
      have := hq q
      simpa using this
    simp only [unboundCut, hf]
    exact subAux_id unboundMatchAt (s.length + 1) s (by omega) hq'
  | some pl =>
    obtain ⟨p, L⟩ := pl
    obtain ⟨p', hp', hmatch, hnone⟩ := findFirstFrom_some_inv _ s 0 p L hf
    have hpp : p' = p := by omega
    subst hpp
    obtain ⟨m, hm, hmL⟩ := Option.map_eq_some'.mp hmatch
    obtain ⟨hm_eq, hne⟩ := unboundMatchAt_some _ m hm
    subst hm_eq
    have hnone' : ∀ q, q < p' → unboundMatchAt (s.drop q) = none := by
      intro q hq
      have := hnone q hq
      simpa using this
    have hplen : p' ≤ s.length := by
      by_contra hgt
      have hd : s.drop p' = [] := List.drop_eq_nil_of_le (by omega)
      exact hne hd
    have hlen_take : (s.take p').length = p' := by
      rw [List.length_take]; omega
    have hstep1 : subAux unboundMatchAt (s.length + 1) s
        = subAux unboundMatchAt (s.length + 1) (s.take p' ++ s.drop p') := by
      rw [List.take_append_drop]
    have hstep2 : subAux unboundMatchAt (s.length + 1) (s.take p' ++ s.drop p')
        = s.take p' ++ subAux unboundMatchAt ((s.drop p').length + 1) (s.drop p') := by
      apply subAux_append unboundMatchAt unboundMatchAt_nil
      · rw [List.take_append_drop]; omega
      · intro q hq
        rw [List.take_append_drop]
        exact hnone' q (by omega)
    have hstep3 : subAux unboundMatchAt ((s.drop p').length + 1) (s.drop p') = [] := by
      cases hdp : s.drop p' with
      | nil => exact absurd hdp hne
      | cons c cs =>
        have hm' : unboundMatchAt (c :: cs) = some (c :: cs, cs.length + 1) := by
          rw [← hdp]
          rw [hm, hdp]
          simp [List.length_cons]
        have hlen : ((s.drop p').length + 1) = (cs.length + 1) + 1 := by
          rw [hdp]; simp [List.length_cons]
        have hlen2 : (c :: cs).length + 1 = (cs.length + 1) + 1 := by
          simp [List.length_cons]
        rw [hlen2, subAux_step_some unboundMatchAt (cs.length + 1) (c :: cs) (c :: cs) cs.length hm']
        have hdrop : (c :: cs).drop (cs.length + 1) = [] := by
          apply List.drop_eq_nil_of_le
          simp [List.length_cons]
        rw [hdrop]
        exact subAux_nil unboundMatchAt unboundMatchAt_nil (cs.length + 1)
    simp only [unboundSub, unboundCut, hf]
    rw [hstep1, hstep2, hstep3, List.append_nil]

/-! ### search agrees with finditer emptiness -/

theorem tagSearch_false_iff (s : Txt) : tagSearch s = false ↔ tagFinditer s = [] :=
  (searchB_eq_false_iff tagMatchAt s).trans
    (finditerAux_nil_iff tagMatchAt tagMatchAt_nil tagMatchAt_pos (s.length + 1) s 0
      (by omega)).symm

theorem finditerAux_unbound_len : ∀ (fuel : Nat) (s : Txt) (i : Nat),
    (finditerAux unboundMatchAt fuel s i).length ≤ 1 := by
  intro fuel
  induction fuel with
  | zero => intro s i; simp [finditerAux]
  | succ fuel ih =>
    intro s i
    cases s with
    | nil =>
      rw [finditerAux_nil unboundMatchAt unboundMatchAt_nil]
      simp
    | cons c cs =>
      cases hf : unboundMatchAt (c :: cs) with
      | none =>
        rw [finditerAux_step_none unboundMatchAt fuel i c cs hf]
        exact ih cs (i + 1)
      | some m =>
        obtain ⟨hm_eq, _⟩ := unboundMatchAt_some (c :: cs) m hf
        subst hm_eq
        rw [List.length_cons] at hf
        rw [finditerAux_step_some unboundMatchAt fuel (c :: cs) i (c :: cs) cs.length hf]
        rw [show (c :: cs).drop (cs.length + 1) = [] from
          List.drop_eq_nil_of_le (by simp)]
        rw [finditerAux_nil unboundMatchAt unboundMatchAt_nil]
        simp

/-! ### Claim theorems -/

/-- C1: when the marker phrase pattern matches, the engine splits at the first
(leftmost) occurrence only: the thought part is everything strictly before the
match start (trimmed), the speech part is everything strictly after the match
end (trimmed); the matched marker — optional `罗莎的` prefix, `最终言语`,
optional colon and trailing whitespace — is consumed and appears in neither
part, and any later occurrences stay inside the speech part verbatim. -/
theorem marker_first_split (t : Txt) (p L : Nat)
    (h : markerMatchAt (t.drop p) = some L)
    (hmin : ∀ q, q < p → markerMatchAt (t.drop q) = none) :
    segmentText t = (pyStrip (t.take p), pyStrip (t.drop (p + L))) := by
  have hf : markerFind t = some (p, L) := by
    have := findFirstFrom_eq_some markerMatchAt t 0 p L hmin h
    simpa using this
  simp only [segmentText, hf]

/-- Witness for C1: concrete scenario A of the specification. -/
theorem marker_first_split_witness :
    segmentText wA = ("思索: 考虑用户情绪。".toList, "你好呀！".toList) := by
  have h := marker_first_split wA 11 6 (by decide) (by decide)
  rw [h]
  decide

/-- C3 (amended): a Phase-3 unbound span is discarded exactly when the tagged
block pattern matches somewhere inside the span itself (the code runs
`THOUGHT_TAG_PATTERN.search` on the matched span); whether the span is
contained in a Phase-2 block is never consulted. -/
theorem phase3_dedup_amended (t : Txt) :
    phase3Frags t = (unboundFinditer t).filterMap
      (fun m => if tagFinditer m.2.1 = [] then some (pyStrip m.2.1) else none) := by
  rw [phase3Frags]
  congr 1
  funext m
  by_cases h : tagSearch m.2.1 = true
  · have hne : ¬ tagFinditer m.2.1 = [] := by
      intro hnil
      have := (tagSearch_false_iff m.2.1).mpr hnil
      rw [h] at this
      exact Bool.noConfusion this
    rw [if_pos h, if_neg hne]
  · have hfalse : tagSearch m.2.1 = false := by
      cases hb : tagSearch m.2.1
      · rfl
      · exact absurd hb h
    have hnil : tagFinditer m.2.1 = [] := (tagSearch_false_iff m.2.1).mp hfalse
    rw [if_neg h, if_pos hnil]

/-- Counterexample for C3 as stated: in `ceC3` the single unbound span starts
at position 0 while the only Phase-2 block starts at position 5, so the span is
not contained within any Phase-2 block; the claim would append its trimmed text
as a fragment, but the code discards it (the span contains a complete block),
leaving only the tag fragment `b`. -/
theorem phase3_dedup_counterexample :
    unboundFinditer ceC3 = [(0, ceC3, 19)] ∧
    tagFinditer ceC3 = [(5, ['b'], 14)] ∧
    phase3Frags ceC3 = [] ∧
    thoughtsFound ceC3 = [['b']] := by decide

/-- C4 (amended): when the marker fails and fragments were found, the reply is
the de-tagged copy with the unbound pattern re-applied to that copy — i.e. the
de-tagged copy truncated at its first unbound-keyword occurrence — trimmed;
which Phase-3 spans were retained or discarded plays no role. -/
theorem cleaned_text_amended (t : Txt) (hm : markerFind t = none)
    (hth : thoughtsFound t ≠ []) :
    segSpeech t = pyStrip (unboundCut (tagSub t)) ∧
    processText t = (joinNL (thoughtsFound t),
      filter_keywords (pyStrip (unboundCut (tagSub t)))) := by
  have hne : (thoughtsFound t).isEmpty = false := by
    cases hl : thoughtsFound t with
    | nil => exact absurd hl hth
    | cons a l => rfl
  have hif : segmentText t = (joinNL (thoughtsFound t), pyStrip (unboundSub (tagSub t))) := by
    simp only [segmentText, hm]
    rw [if_neg (show ¬ (thoughtsFound t).isEmpty = true by simp [hne])]
  constructor
  · simp [segSpeech, hif, unboundSub_eq_cut]
  · simp [processText, segThought, segSpeech, hif, unboundSub_eq_cut]

/-- Witness for C4 (amended): a tagged block followed by a retained unbound
span; the cleaned reply is empty. -/
theorem cleaned_text_witness :
    segSpeech w4 = [] ∧
    processText w4 = (joinNL (thoughtsFound w4),
      filter_keywords (pyStrip (unboundCut (tagSub w4)))) := by
  have h := cleaned_text_amended w4 (by decide) (by decide)
  exact ⟨by rw [h.1]; decide, h.2⟩

/-- Counterexample for C4 as stated: in `ceC4` no Phase-3 span is retained, so
the claim predicts the reply `思索: ac` (the trimmed de-tagged copy with
nothing further removed), but the code re-applies the unbound pattern to the
de-tagged copy and the reply is empty. -/
theorem cleaned_text_counterexample :
    markerFind ceC4 = none ∧
    phase3Frags ceC4 = [] ∧
    thoughtsFound ceC4 = [['b']] ∧
    segSpeech ceC4 = [] ∧
    pyStrip (tagSub ceC4) = "思索: ac".toList ∧
    segSpeech ceC4 ≠ pyStrip (tagSub ceC4) := by decide

/-- C5 (amended): with no marker, no tagged block and no unbound match, the
thought part is empty and the reply is the trimmed raw text passed through the
Phase-4 keyword removal; it equals the trimmed raw text itself whenever that
text is free of redaction keywords. -/
theorem speech_fallback_amended (t : Txt) (h1 : markerFind t = none)
    (h2 : tagFinditer t = []) (h3 : unboundFinditer t = []) :
    processText t = ([], filter_keywords (pyStrip t)) ∧
    (kwFree (pyStrip t) = true → processText t = ([], pyStrip t)) := by
  have hth : thoughtsFound t = [] := by
    simp [thoughtsFound, tagFrags, phase3Frags, h2, h3]
  have hseg : segmentText t = ([], pyStrip t) := by
    simp [segmentText, h1, hth]
  refine ⟨?_, ?_⟩
  · simp [processText, segThought, segSpeech, hseg]
  · intro hkw
    simp [processText, segThought, segSpeech, hseg, filter_keywords_id _ hkw]

/-- Witness for C5 (amended): whitespace-padded pattern-free text. -/
theorem speech_fallback_witness :
    processText w5 = ([], "你好".toList) ∧ kwFree (pyStrip w5) = true := by
  have h := speech_fallback_amended w5 (by decide) (by decide) (by decide)
  refine ⟨?_, by decide⟩
  rw [h.2 (by decide)]
  decide

/-- Counterexample for C5 as stated: `呃...好` matches no pattern, yet the
final reply is `好`, not the trimmed raw text — Phase 4 removed the keyword. -/
theorem speech_fallback_counterexample :
    markerFind ceC5 = none ∧ tagFinditer ceC5 = [] ∧ unboundFinditer ceC5 = [] ∧
    pyStrip ceC5 = ceC5 ∧ processText ceC5 = ([], ['好']) ∧
    (processText ceC5).2 ≠ pyStrip ceC5 := by decide

/-- C6 (amended): one redaction pass is idempotent on every string whose
single-pass output is keyword-free; in general a removal can splice a new
occurrence out of the surrounding characters, so unconditional idempotence
fails. -/
theorem redaction_idempotent_amended (s : Txt)
    (h : kwFree (filter_keywords s) = true) :
    filter_keywords (filter_keywords s) = filter_keywords s :=
  filter_keywords_id (filter_keywords s) h

/-- Witness for C6 (amended): concrete scenario C of the specification. -/
theorem redaction_idempotent_witness :
    kwFree (filter_keywords w6) = true ∧
    filter_keywords (filter_keywords w6) = filter_keywords w6 :=
  ⟨by decide, redaction_idempotent_amended w6 (by decide)⟩

/-- Counterexample for C6 as stated: removing `卧槽` from `卧卧槽槽` leaves
`卧槽`, and a second pass removes that too — the two results differ. -/
theorem redaction_idempotent_counterexample :
    filter_keywords ceC6 = ['卧', '槽'] ∧
    filter_keywords (filter_keywords ceC6) = [] ∧
    filter_keywords (filter_keywords ceC6) ≠ filter_keywords ceC6 := by decide

/-- C7 (amended): the final reply is the single redaction pass over the
segmented reply; whenever the segmented reply is already keyword-free the
final reply is unchanged and keyword-free.  A pass can splice a new keyword
occurrence out of fragments of removed occurrences, so the unconditional
invariant fails. -/
theorem speech_keyword_invariant_amended (t : Txt)
    (h : kwFree (segSpeech t) = true) :
    (processText t).2 = segSpeech t ∧ kwFree ((processText t).2) = true := by
  have hfk : filter_keywords (segSpeech t) = segSpeech t := filter_keywords_id _ h
  constructor
  · simp [processText, hfk]
  · simp [processText, hfk, h]

/-- Witness for C7 (amended). -/
theorem speech_keyword_invariant_witness :
    kwFree (segSpeech w7) = true ∧ (processText w7).2 = segSpeech w7 :=
  ⟨by decide, (speech_keyword_invariant_amended w7 (by decide)).1⟩

/-- Counterexample for C7 as stated: on `我我操操` the final reply is `我操`,
which is itself a configured redaction keyword. -/
theorem speech_keyword_invariant_counterexample :
    processText ceC7 = ([], ['我', '操']) ∧ ['我', '操'] ∈ FILTERED_KEYWORDS ∧
    containsSub (processText ceC7).2 ['我', '操'] = true := by decide

/-- C8: when the marker matches, the marker split decides the whole result —
the segmentation equals the split of the raw text at the marker even when
tagged blocks are present, so tag content before the marker stays inside the
thought part verbatim (tags included) and is never tag-extracted. -/
theorem marker_priority (t : Txt) (p L : Nat)
    (h : markerFind t = some (p, L)) (htag : tagFinditer t ≠ []) :
    segmentText t = (pyStrip (t.take p), pyStrip (t.drop (p + L))) ∧
    processText t = (pyStrip (t.take p), filter_keywords (pyStrip (t.drop (p + L)))) := by
  constructor
  · simp only [segmentText, h]
  · simp [processText, segThought, segSpeech, segmentText, h]

/-- Witness for C8: a tagged block before a marker stays in the thought part
with its tags. -/
theorem marker_priority_witness :
    segmentText w8 = ("<内心独白>x</内心独白>".toList, ['好']) ∧
    processText w8 = ("<内心独白>x</内心独白>".toList, ['好']) := by
  have h := marker_priority w8 14 6 (by decide) (by decide)
  constructor
  · rw [h.1]; decide
  · rw [h.2]; decide

/-- C9: for an absent response, an absent text or an empty text the handler is
a complete no-op — the response is left unmodified and no log entry is
written. -/
theorem empty_input_noop (display : Bool) (resp : Option LLMResp)
    (h : truthyResp resp = false) :
    process_llm_response display resp = (resp, []) := by
  cases resp with
  | none => rfl
  | some r =>
    obtain ⟨ct⟩ := r
    cases ct with
    | none => rfl
    | some t =>
      cases t with
      | nil => rfl
      | cons a s => simp [truthyResp] at h

/-- Witness for C9: concrete scenario D (empty text). -/
theorem empty_input_noop_witness :
    process_llm_response false (some ⟨some []⟩) = (some ⟨some []⟩, []) :=
  empty_input_noop false (some ⟨some []⟩) (by decide)

/-- C10: the unbound pattern runs greedily to the end of the string, so the
Phase-3 scan yields at most one match and contributes at most one thought
fragment; a second keyword occurrence always lies inside the first match. -/
theorem phase3_single_fragment (t : Txt) :
    (unboundFinditer t).length ≤ 1 ∧ (phase3Frags t).length ≤ 1 := by
  have h1 : (unboundFinditer t).length ≤ 1 := finditerAux_unbound_len (t.length + 1) t 0
  refine ⟨h1, ?_⟩
  calc (phase3Frags t).length
      ≤ (unboundFinditer t).length := List.length_filterMap_le _ _
    _ ≤ 1 := h1

/-! ### Prefix and substring-search lemmas for the tag pattern -/

theorem isPrefixOf_self_append (l r : Txt) : l.isPrefixOf (l ++ r) = true := by
  rw [List.isPrefixOf_iff_prefix]
  exact List.prefix_append l r

theorem isPrefixOf_cons_ne (a b : Char) (as bs : Txt) (h : a ≠ b) :
    (a :: as).isPrefixOf (b :: bs) = false := by
  rw [Bool.eq_false_iff]
  intro hc
  rw [List.isPrefixOf_iff_prefix, List.cons_prefix_cons] at hc
  exact h hc.1

theorem findSub_append_self (b : Char) (bs : Txt) :
    ∀ (c w : Txt), b ∉ c →
    findSub (c ++ ((b :: bs) ++ w)) (b :: bs) = some c.length := by
  intro c
  induction c with
  | nil =>
    intro w _
    have hpre : (b :: bs).isPrefixOf (b :: (bs ++ w)) = true := by
      rw [← List.cons_append]
      exact isPrefixOf_self_append (b :: bs) w
    simp only [List.nil_append, List.cons_append, findSub, List.length_nil,
      List.append_eq]
    rw [if_pos hpre]
  | cons a c' ih =>
    intro w hb
    have hane : b ≠ a := by
      intro he
      apply hb
      rw [he]
      exact List.mem_cons_self a c'
    have hpre : (b :: bs).isPrefixOf (a :: (c' ++ (b :: (bs ++ w)))) = false := by
      rw [← List.cons_append]
      exact isPrefixOf_cons_ne b a bs _ hane
    have hrec := ih w (fun hmem => hb (List.mem_cons_of_mem a hmem))
    simp only [List.cons_append] at hrec
    simp only [List.cons_append, findSub, List.length_cons, List.append_eq]
    rw [if_neg (by rw [hpre]; simp), hrec]
    rfl

theorem tagTryName_match (n c w : Txt)
    (hfind : findSub (c ++ (closeTag n ++ w)) (closeTag n) = some c.length) :
    tagTryName ('<' :: (n ++ ('>' :: (c ++ (closeTag n ++ w))))) n =
      some (c, (2 + n.length) + (c.length + (closeTag n).length)) := by
  have hpre : n.isPrefixOf (n ++ ('>' :: (c ++ (closeTag n ++ w)))) = true :=
    isPrefixOf_self_append n _
  have hdrop : (n ++ ('>' :: (c ++ (closeTag n ++ w)))).drop n.length
      = '>' :: (c ++ (closeTag n ++ w)) := List.drop_left n _
  have htake : (c ++ (closeTag n ++ w)).take c.length = c := List.take_left c _
  simp [tagTryName, hpre, hdrop, hfind, htake]

theorem tagTryName_ne_head (m0 n0 : Char) (ms ns rest : Txt) (hne : m0 ≠ n0) :
    tagTryName ('<' :: ((n0 :: ns) ++ rest)) (m0 :: ms) = none := by
  have hpre : (m0 :: ms).isPrefixOf ((n0 :: ns) ++ rest) = false := by
    rw [List.cons_append]
    exact isPrefixOf_cons_ne m0 n0 ms _ hne
  simp only [tagTryName]
  rw [if_pos trivial, if_neg (by rw [hpre]; simp)]

theorem tagTryName_not_lt (a : Char) (rest n : Txt) (h : ¬ a = '<') :
    tagTryName (a :: rest) n = none := by
  simp [tagTryName, h]

theorem tagMatchAt_not_lt (a : Char) (rest : Txt) (h : ¬ a = '<') :
    tagMatchAt (a :: rest) = none := by
  simp [tagMatchAt, tagTryName_not_lt a rest tagName1 h,
    tagTryName_not_lt a rest tagName2 h, tagTryName_not_lt a rest tagName3 h]

theorem name_no_lt (X : Txt) (hX : X ∈ tagNames) : '<' ∉ X := by
  simp [tagNames] at hX
  rcases hX with rfl | rfl | rfl <;> decide

theorem tagMatchAt_close (B : Txt) (hB : B ∈ tagNames) :
    tagMatchAt (closeTag B) = none := by
  simp [tagNames] at hB
  rcases hB with rfl | rfl | rfl <;> decide

theorem tagMatchAt_block (X : Txt) (hX : X ∈ tagNames) (c w : Txt) (hc : '<' ∉ c) :
    tagMatchAt (openTag X ++ (c ++ (closeTag X ++ w)))
      = some (c, (2 + X.length) + (c.length + (closeTag X).length)) := by
  have hfind : findSub (c ++ (closeTag X ++ w)) (closeTag X) = some c.length := by
    have hcl : closeTag X = '<' :: ('/' :: (X ++ ['>'])) := rfl
    rw [hcl]
    exact findSub_append_self '<' ('/' :: (X ++ ['>'])) c w hc
  have hshape : openTag X ++ (c ++ (closeTag X ++ w))
      = '<' :: (X ++ ('>' :: (c ++ (closeTag X ++ w)))) := by
    simp [openTag, List.cons_append, List.append_assoc]
  have hmain := tagTryName_match X c w hfind
  rw [hshape]
  simp only [tagNames, List.mem_cons, List.not_mem_nil, or_false] at hX
  rcases hX with rfl | rfl | rfl
  · simp only [tagMatchAt, hmain]
  · have h1 : tagTryName ('<' :: (tagName2 ++ ('>' :: (c ++ (closeTag tagName2 ++ w)))))
        tagName1 = none := by
      have := tagTryName_ne_head '内' '无' ['心', '独', '白'] ['声', '的', '观', '察']
        ('>' :: (c ++ (closeTag tagName2 ++ w))) (by decide)
      simpa [tagName1, tagName2] using this
    simp only [tagMatchAt, h1, hmain]
  · have h1 : tagTryName ('<' :: (tagName3 ++ ('>' :: (c ++ (closeTag tagName3 ++ w)))))
        tagName1 = none := by
      have := tagTryName_ne_head '内' '意' ['心', '独', '白'] ['识', '流', '动']
        ('>' :: (c ++ (closeTag tagName3 ++ w))) (by decide)
      simpa [tagName1, tagName3] using this
    have h2 : tagTryName ('<' :: (tagName3 ++ ('>' :: (c ++ (closeTag tagName3 ++ w)))))
        tagName2 = none := by
      have := tagTryName_ne_head '无' '意' ['声', '的', '观', '察'] ['识', '流', '动']
        ('>' :: (c ++ (closeTag tagName3 ++ w))) (by decide)
      simpa [tagName2, tagName3] using this
    simp only [tagMatchAt, h1, h2, hmain]

theorem block_shape (X c v : Txt) :
    openTag X ++ (c ++ (closeTag X ++ v)) = (openTag X ++ c ++ closeTag X) ++ v := by
  simp [List.append_assoc]

theorem block_len (X c : Txt) :
    (openTag X ++ c ++ closeTag X).length
      = (2 + X.length) + (c.length + (closeTag X).length) := by
  simp [openTag, closeTag, List.length_append, List.length_cons]
  omega

theorem suffix_head_lt (s : Txt) : ∀ (u w : Txt), '<' ∉ u → s <:+ u ++ w →
    s.head? = some '<' → s <:+ w := by
  intro u
  induction u with
  | nil =>
    intro w _ hs _
    simpa using hs
  | cons a u' ih =>
    intro w hu hs hh
    rw [List.cons_append] at hs
    rcases List.suffix_cons_iff.mp hs with heq | hs'
    · have ha : a = '<' := by
        rw [heq] at hh
        simpa using hh
      exfalso
      subst ha
      exact hu (List.mem_cons_self '<' u')
    · exact ih w (fun hmem => hu (List.mem_cons_of_mem a hmem)) hs' hh

theorem findSub_close_base (A B : Txt) (hA : A ∈ tagNames) (hB : B ∈ tagNames)
    (hne : A ≠ B) : findSub (closeTag B) (closeTag A) = none := by
  simp only [tagNames, List.mem_cons, List.not_mem_nil, or_false] at hA hB
  rcases hA with rfl | rfl | rfl <;> rcases hB with rfl | rfl | rfl <;>
    first
      | exact absurd rfl hne
      | decide

theorem findSub_close_ne (A B : Txt)
    (hbase : findSub (closeTag B) (closeTag A) = none) :
    ∀ c : Txt, '<' ∉ c → findSub (c ++ closeTag B) (closeTag A) = none := by
  intro c
  induction c with
  | nil =>
    intro _
    simpa using hbase
  | cons a c' ih =>
    intro hc
    have hane : ('<' : Char) ≠ a := by
      intro he
      apply hc
      rw [he]
      exact List.mem_cons_self a c'
    have hpre : (closeTag A).isPrefixOf (a :: (c' ++ closeTag B)) = false := by
      have hcl : closeTag A = '<' :: ('/' :: (A ++ ['>'])) := rfl
      rw [hcl]
      exact isPrefixOf_cons_ne '<' a _ _ hane
    have hrec := ih (fun hmem => hc (List.mem_cons_of_mem a hmem))
    simp only [List.cons_append, findSub, List.append_eq]
    rw [if_neg (by rw [hpre]; simp), hrec]
    rfl

theorem tagMatchAt_mismatch_zero (A B c : Txt) (hA : A ∈ tagNames) (hB : B ∈ tagNames)
    (hne : A ≠ B) (hc : '<' ∉ c) :
    tagMatchAt (openTag A ++ (c ++ closeTag B)) = none := by
  have hfind : findSub (c ++ closeTag B) (closeTag A) = none :=
    findSub_close_ne A B (findSub_close_base A B hA hB hne) c hc
  have hshape : openTag A ++ (c ++ closeTag B)
      = '<' :: (A ++ ('>' :: (c ++ closeTag B))) := by
    simp [openTag, List.cons_append, List.append_assoc]
  have hself : tagTryName ('<' :: (A ++ ('>' :: (c ++ closeTag B)))) A = none := by
    have hpre : A.isPrefixOf (A ++ ('>' :: (c ++ closeTag B))) = true :=
      isPrefixOf_self_append A _
    have hdrop : (A ++ ('>' :: (c ++ closeTag B))).drop A.length
        = '>' :: (c ++ closeTag B) := List.drop_left A _
    simp [tagTryName, hpre, hdrop, hfind]
  rw [hshape]
  simp only [tagNames, List.mem_cons, List.not_mem_nil, or_false] at hA
  rcases hA with rfl | rfl | rfl
  · have h2 : tagTryName ('<' :: (tagName1 ++ ('>' :: (c ++ closeTag B)))) tagName2 = none := by
      have := tagTryName_ne_head '无' '内' ['声', '的', '观', '察'] ['心', '独', '白']
        ('>' :: (c ++ closeTag B)) (by decide)
      simpa [tagName1, tagName2] using this
    have h3 : tagTryName ('<' :: (tagName1 ++ ('>' :: (c ++ closeTag B)))) tagName3 = none := by
      have := tagTryName_ne_head '意' '内' ['识', '流', '动'] ['心', '独', '白']
        ('>' :: (c ++ closeTag B)) (by decide)
      simpa [tagName1, tagName3] using this
    simp only [tagMatchAt, hself, h2, h3]
  · have h1 : tagTryName ('<' :: (tagName2 ++ ('>' :: (c ++ closeTag B)))) tagName1 = none := by
      have := tagTryName_ne_head '内' '无' ['心', '独', '白'] ['声', '的', '观', '察']
        ('>' :: (c ++ closeTag B)) (by decide)
      simpa [tagName1, tagName2] using this
    have h3 : tagTryName ('<' :: (tagName2 ++ ('>' :: (c ++ closeTag B)))) tagName3 = none := by
      have := tagTryName_ne_head '意' '无' ['识', '流', '动'] ['声', '的', '观', '察']
        ('>' :: (c ++ closeTag B)) (by decide)
      simpa [tagName2, tagName3] using this
    simp only [tagMatchAt, h1, hself, h3]
  · have h1 : tagTryName ('<' :: (tagName3 ++ ('>' :: (c ++ closeTag B)))) tagName1 = none := by
      have := tagTryName_ne_head '内' '意' ['心', '独', '白'] ['识', '流', '动']
        ('>' :: (c ++ closeTag B)) (by decide)
      simpa [tagName1, tagName3] using this
    have h2 : tagTryName ('<' :: (tagName3 ++ ('>' :: (c ++ closeTag B)))) tagName2 = none := by
      have := tagTryName_ne_head '无' '意' ['声', '的', '观', '察'] ['识', '流', '动']
        ('>' :: (c ++ closeTag B)) (by decide)
      simpa [tagName2, tagName3] using this
    simp only [tagMatchAt, h1, h2, hself]

theorem tag_mismatch_no_match (A B c : Txt) (hA : A ∈ tagNames) (hB : B ∈ tagNames)
    (hne : A ≠ B) (hc : '<' ∉ c) :
    tagFinditer (openTag A ++ (c ++ closeTag B)) = [] := by
  have hshape : openTag A ++ (c ++ closeTag B)
      = '<' :: ((A ++ ('>' :: c)) ++ closeTag B) := by
    simp [openTag, List.cons_append, List.append_assoc]
  apply finditerAux_eq_nil
  intro q
  cases q with
  | zero =>
    simpa using tagMatchAt_mismatch_zero A B c hA hB hne hc
  | succ q' =>
    rw [hshape, List.drop_succ_cons]
    have hsuf : ((A ++ ('>' :: c)) ++ closeTag B).drop q'
        <:+ (A ++ ('>' :: c)) ++ closeTag B := List.drop_suffix q' _
    revert hsuf
    generalize ((A ++ ('>' :: c)) ++ closeTag B).drop q' = s
    intro hsuf
    cases s with
    | nil => exact tagMatchAt_nil
    | cons a s' =>
      by_cases ha : a = '<'
      · subst ha
        have hnu : '<' ∉ A ++ ('>' :: c) := by
          intro hmem
          rcases List.mem_append.mp hmem with h1 | h1
          · exact name_no_lt A hA h1
          · rcases List.mem_cons.mp h1 with h2 | h2
            · exact absurd h2 (by decide)
            · exact hc h2
        have hclose : ('<' :: s') <:+ closeTag B :=
          suffix_head_lt ('<' :: s') (A ++ ('>' :: c)) (closeTag B) hnu hsuf rfl
        have hEq : ('<' :: s') = closeTag B := by
          have hcl : closeTag B = '<' :: ('/' :: (B ++ ['>'])) := rfl
          rw [hcl] at hclose
          rcases List.suffix_cons_iff.mp hclose with heq | hsuf2
          · rw [hcl]; exact heq
          · exfalso
            have hnu2 : '<' ∉ '/' :: (B ++ ['>']) := by
              intro hmem
              rcases List.mem_cons.mp hmem with h2 | h2
              · exact absurd h2 (by decide)
              · rcases List.mem_append.mp h2 with h3 | h3
                · exact name_no_lt B hB h3
                · rcases List.mem_cons.mp h3 with h4 | h4
                  · exact absurd h4 (by decide)
                  · simp at h4
            have hnil := suffix_head_lt ('<' :: s') ('/' :: (B ++ ['>'])) [] hnu2
              (by simpa using hsuf2) rfl
            simp at hnil
        rw [hEq]
        exact tagMatchAt_close B hB
      · exact tagMatchAt_not_lt a s' ha

theorem tag_block_segmentation (u X c v : Txt) (hX : X ∈ tagNames) (hc : '<' ∉ c)
    (hu : ∀ q, q < u.length →
      tagMatchAt ((u ++ (openTag X ++ (c ++ (closeTag X ++ v)))).drop q) = none)
    (hm : markerFind (u ++ (openTag X ++ (c ++ (closeTag X ++ v)))) = none) :
    pyStrip c <:+: segThought (u ++ (openTag X ++ (c ++ (closeTag X ++ v)))) ∧
    segSpeech (u ++ (openTag X ++ (c ++ (closeTag X ++ v))))
      = pyStrip (unboundSub (u ++ tagSub v)) := by
  have hblock := tagMatchAt_block X hX c v hc
  obtain ⟨B, hB⟩ : ∃ B, (2 + X.length) + (c.length + (closeTag X).length) = B + 1 :=
    ⟨(1 + X.length) + (c.length + (closeTag X).length), by omega⟩
  have hblock' : tagMatchAt (openTag X ++ (c ++ (closeTag X ++ v))) = some (c, B + 1) := by
    rw [hblock, hB]
  have hwlen : (openTag X ++ (c ++ (closeTag X ++ v))).length = (B + 1) + v.length := by
    rw [block_shape, List.length_append, block_len, hB]
  have hdropv : (openTag X ++ (c ++ (closeTag X ++ v))).drop (B + 1) = v := by
    rw [block_shape, ← hB, ← block_len]
    exact List.drop_left _ _
  have hfd : tagFinditer (u ++ (openTag X ++ (c ++ (closeTag X ++ v))))
      = (0 + u.length, c, B + 1) ::
        finditerAux tagMatchAt (openTag X ++ (c ++ (closeTag X ++ v))).length
          v (0 + u.length + (B + 1)) := by
    have e1 := finditerAux_append tagMatchAt tagMatchAt_nil u
      (openTag X ++ (c ++ (closeTag X ++ v)))
      ((u ++ (openTag X ++ (c ++ (closeTag X ++ v)))).length + 1) 0
      (by omega) hu
    have e2 := finditerAux_step_some tagMatchAt
      (openTag X ++ (c ++ (closeTag X ++ v))).length
      (openTag X ++ (c ++ (closeTag X ++ v))) (0 + u.length) c B hblock'
    simp only [tagFinditer]
    rw [e1, e2, hdropv]
  have hmem : pyStrip c ∈ thoughtsFound (u ++ (openTag X ++ (c ++ (closeTag X ++ v)))) := by
    simp only [thoughtsFound, tagFrags]
    rw [hfd]
    simp
  have hne : (thoughtsFound (u ++ (openTag X ++ (c ++ (closeTag X ++ v))))).isEmpty
      = false := by
    cases hl : thoughtsFound (u ++ (openTag X ++ (c ++ (closeTag X ++ v)))) with
    | nil => rw [hl] at hmem; simp at hmem
    | cons x xs => rfl
  have hseg : segmentText (u ++ (openTag X ++ (c ++ (closeTag X ++ v))))
      = (joinNL (thoughtsFound (u ++ (openTag X ++ (c ++ (closeTag X ++ v))))),
        pyStrip (unboundSub (tagSub (u ++ (openTag X ++ (c ++ (closeTag X ++ v))))))) := by
    simp only [segmentText, hm]
    rw [if_neg (show ¬ (thoughtsFound
      (u ++ (openTag X ++ (c ++ (closeTag X ++ v))))).isEmpty = true by simp [hne])]
  have hsub : tagSub (u ++ (openTag X ++ (c ++ (closeTag X ++ v)))) = u ++ tagSub v := by
    have s1 := subAux_append tagMatchAt tagMatchAt_nil u
      (openTag X ++ (c ++ (closeTag X ++ v)))
      ((u ++ (openTag X ++ (c ++ (closeTag X ++ v)))).length + 1)
      (by omega) hu
    have s2 := subAux_step_some tagMatchAt
      (openTag X ++ (c ++ (closeTag X ++ v))).length
      (openTag X ++ (c ++ (closeTag X ++ v))) c B hblock'
    have s3 : subAux tagMatchAt (openTag X ++ (c ++ (closeTag X ++ v))).length v
        = tagSub v := by
      simp only [tagSub]
      apply subAux_congr tagMatchAt tagMatchAt_nil
      · rw [hwlen]; omega
      · omega
    simp only [tagSub]
    rw [s1, s2, hdropv, s3]
    rfl
  constructor
  · have hth : segThought (u ++ (openTag X ++ (c ++ (closeTag X ++ v))))
        = joinNL (thoughtsFound (u ++ (openTag X ++ (c ++ (closeTag X ++ v))))) := by
      simp [segThought, hseg]
    rw [hth]
    exact mem_infix_joinNL (pyStrip c) _ hmem
  · have hsp : segSpeech (u ++ (openTag X ++ (c ++ (closeTag X ++ v))))
        = pyStrip (unboundSub (tagSub (u ++ (openTag X ++ (c ++ (closeTag X ++ v)))))) := by
      simp [segSpeech, hseg]
    rw [hsp, hsub]

/-- C2 (amended): (a) for an input of the shape `u ++ <X>c</X> ++ v` with `X`
an accepted tag name, no tag match starting inside `u`, content free of `<`
and no marker match, the block is matched exactly: its trimmed content occurs
in the thought part, and the speech part is built from `u ++ tagSub v` — the
matched block occurrence is excised.  Because the excision concatenates `u`
with the de-tagged `v`, an equal block substring can reappear in the speech
text (see the counterexample), so the original substring-absence claim holds
only up to that regluing.  (b) A mismatched pair `<A>c</B>` with distinct
accepted names is never matched as a block: the tag scan of `<A>c</B>` finds
nothing and the text is left for Phase 3 or the speech fallback. -/
theorem tag_block_extraction_amended :
    (∀ u X c v : Txt, X ∈ tagNames → '<' ∉ c →
      (∀ q, q < u.length →
        tagMatchAt ((u ++ (openTag X ++ (c ++ (closeTag X ++ v)))).drop q) = none) →
      markerFind (u ++ (openTag X ++ (c ++ (closeTag X ++ v)))) = none →
      (pyStrip c <:+: segThought (u ++ (openTag X ++ (c ++ (closeTag X ++ v)))) ∧
       segSpeech (u ++ (openTag X ++ (c ++ (closeTag X ++ v))))
         = pyStrip (unboundSub (u ++ tagSub v)))) ∧
    (∀ A B c : Txt, A ∈ tagNames → B ∈ tagNames → A ≠ B → '<' ∉ c →
      tagFinditer (openTag A ++ (c ++ closeTag B)) = []) :=
  ⟨fun u X c v hX hc hu hm => tag_block_segmentation u X c v hX hc hu hm,
   fun A B c hA hB hne hc => tag_mismatch_no_match A B c hA hB hne hc⟩

/-- Witness for C2 (amended): concrete scenario B (a `内心独白` block followed
by speech) for part (a), and `<内心独白>x</意识流动>` for part (b). -/
theorem tag_block_extraction_witness :
    (pyStrip wBc <:+: segThought ([] ++ (openTag tagName1 ++ (wBc ++ (closeTag tagName1 ++ wBv)))) ∧
     segSpeech ([] ++ (openTag tagName1 ++ (wBc ++ (closeTag tagName1 ++ wBv))))
       = pyStrip (unboundSub ([] ++ tagSub wBv))) ∧
    tagFinditer (openTag tagName1 ++ (wBm ++ closeTag tagName2)) = [] := by
  constructor
  · exact tag_block_extraction_amended.1 [] tagName1 wBc wBv (by decide) (by decide)
      (fun q hq => absurd hq (by simp)) (by decide)
  · exact tag_block_extraction_amended.2 tagName1 tagName2 wBm (by decide) (by decide)
      (by decide) (by decide)

/-- Counterexample for C2 as stated: `ceC2` contains the well-formed accepted
block `blkC2 = <内心独白>a</内心独白>` (and no marker), yet after tag removal
the surrounding text reglues into that very block, so `blkC2` occurs in the
final speech text — the block is not "fully absent from speechText". -/
theorem tag_block_absence_counterexample :
    containsSub ceC2 blkC2 = true ∧
    tagMatchAt blkC2 = some (['a'], 14) ∧
    markerFind ceC2 = none ∧
    segSpeech ceC2 = blkC2 ∧
    (processText ceC2).2 = blkC2 ∧
    containsSub ((processText ceC2).2) blkC2 = true := by decide
